import Mathlib

/-!
Verification of the revision aggregation pipeline of `stats.py`.

The source program reads Phabricator code-review records from a relational
store and materializes, per revision, a nested report record: stack size
(BFS over dependency edges filtered by a bug-identifier parsed from the
title), diffs, changesets, inline and general comments, and review requests.

Rows of each table are embedded as Lean structures; a SQLAlchemy query over a
table becomes a `List.filter` over the list of that table's rows; `.one()`
becomes `queryOne` (error on zero or many matches, like `NoResultFound` /
`MultipleResultsFound`); `.first()` becomes `List.head?`; Python loops that
build a dict while any lookup may raise become `buildDict`, a monadic map in
the `Except` monad that preserves insertion order and aborts on the first
error, mirroring exception propagation.
-/

namespace PhabStats

/-- A row of `differential_revision`: the fields read by `stats.py`. -/
structure Revision where
  id : Nat
  phid : String
  title : String
  dateCreated : Nat
  status : String
  repositoryPHID : String
deriving DecidableEq, Repr

/-- A row of the `edge` table: a typed directed relation between handles. -/
structure Edge where
  src : String
  dst : String
  type : Nat
deriving DecidableEq, Repr

/-- A row of `differential_reviewer`. -/
structure Reviewer where
  id : Nat
  revisionPHID : String
  reviewerPHID : String
  dateCreated : Nat
  dateModified : Nat
  reviewerStatus : String
deriving DecidableEq, Repr

/-- A row of the `user` table. -/
structure User where
  phid : String
  userName : String
deriving DecidableEq, Repr

/-- A row of the `project` table. -/
structure Project where
  phid : String
  name : String
deriving DecidableEq, Repr

/-- A row of `repository_uri` (mapped as `RepoDb.Repository`). -/
structure RepositoryUri where
  repositoryPHID : String
  uri : String
deriving DecidableEq, Repr

/-- A row of `differential_diff` (mapped as `DiffDb.Differential`). -/
structure Differential where
  id : Nat
  revisionID : Nat
  authorPHID : String
  dateCreated : Nat
deriving DecidableEq, Repr

/-- A row of `differential_changeset`. -/
structure Changeset where
  id : Nat
  diffID : Nat
  addLines : Nat
  delLines : Nat
deriving DecidableEq, Repr

/-- A JSON value, the result of `json.loads` on an attributes blob. -/
inductive Json where
  | null : Json
  | bool (b : Bool) : Json
  | num (n : Int) : Json
  | str (s : String) : Json
  | arr (elems : List Json) : Json
  | obj (fields : List (String × Json)) : Json
deriving Repr

/-- A row of `differential_transaction_comment`.  The `attributes` column
holds a serialized JSON object; it is embedded here already parsed (the
fields of the object `json.loads` returns). -/
structure TransactionComment where
  id : Nat
  phid : String
  changesetID : Nat
  authorPHID : String
  dateCreated : Nat
  content : String
  attributes : List (String × Json)

/-- A row of `differential_transaction`. -/
structure Transaction where
  objectPHID : String
  transactionType : String
  commentPHID : String
deriving DecidableEq, Repr

/-- Python dict lookup on a parsed JSON object (`att[k]` / `att.get(k)`). -/
def jsonLookup (fields : List (String × Json)) (k : String) : Option Json :=
  (fields.find? (fun kv => kv.1 == k)).map (·.2)

/-- SQLAlchemy `.one()`: exactly one row or an error, as raised by
`NoResultFound` / `MultipleResultsFound`. -/
def queryOne {α : Type} (l : List α) : Except String α :=
  match l with
  | [] => Except.error "NoResultFound"
  | [x] => Except.ok x
  | _ :: _ :: _ => Except.error "MultipleResultsFound"

/-- A Python `for` loop that appends one dict entry per item, where building
an entry may raise: monadic map in `Except`, aborting at the first error. -/
def buildDict {α β : Type} (f : α → Except String β) : List α → Except String (List β)
  | [] => Except.ok []
  | a :: l => do
    let b ← f a
    let r ← buildDict f l
    pure (b :: r)

/-- `title.split("-")[0]`: the prefix of the title before the first `-`
(the whole title when no `-` occurs), used as the bug identifier. -/
def bugId (title : String) : String :=
  String.mk (title.toList.takeWhile (fun c => c != '-'))

/-- `type.in_([5, 6])`: the two dependency edge type codes. -/
def dep_edge (e : Edge) : Bool :=
  e.type == 5 || e.type == 6

/-- The edge filter of one BFS round in `get_stack_size`:
`or_(src.in_(neighbors), dst.in_(neighbors))` together with the type filter. -/
def edge_matches (neighbors : Finset String) (e : Edge) : Bool :=
  (decide (e.src ∈ neighbors) || decide (e.dst ∈ neighbors)) && dep_edge e

/-- Whether `revisions.filter_by(phid=p)` yields some revision whose parsed
bug identifier equals `bug` — the condition under which an edge endpoint is
appended to `revlist`. -/
def resolves_bug (revisions : List Revision) (bug : String) (p : String) : Bool :=
  revisions.any (fun r => r.phid == p && bugId r.title == bug)

/-- The endpoints of one edge contributed to `revlist`. -/
def edge_endpoints (revisions : List Revision) (bug : String) (e : Edge) : List String :=
  (if resolves_bug revisions bug e.src then [e.src] else []) ++
  (if resolves_bug revisions bug e.dst then [e.dst] else [])

/-- `set(revlist)` of one round of `get_stack_size`: all endpoints of
matching dependency edges that resolve to a same-bug revision. -/
def roundRevs (edges : List Edge) (revisions : List Revision) (bug : String)
    (neighbors : Finset String) : Finset String :=
  ((edges.filter (edge_matches neighbors)).flatMap (edge_endpoints revisions bug)).toFinset

/-- One hop of the traversal relation underlying `get_stack_size`: some
dependency edge touches `p`, and `q` is an endpoint of that edge resolving
to a revision with bug identifier `bug`. -/
def dep_step (edges : List Edge) (revisions : List Revision) (bug : String)
    (p q : String) : Prop :=
  ∃ e ∈ edges, dep_edge e = true ∧ (e.src = p ∨ e.dst = p) ∧
    (q = e.src ∨ q = e.dst) ∧ resolves_bug revisions bug q = true

theorem mem_roundRevs_iff {edges : List Edge} {revisions : List Revision} {bug : String}
    {neighbors : Finset String} {q : String} :
    q ∈ roundRevs edges revisions bug neighbors ↔
      ∃ p ∈ neighbors, dep_step edges revisions bug p q := by
  unfold roundRevs edge_endpoints edge_matches dep_step
  simp only [List.mem_toFinset, List.mem_flatMap, List.mem_filter]
  constructor
  · rintro ⟨e, ⟨he, hm⟩, hq⟩
    simp only [Bool.and_eq_true, Bool.or_eq_true, decide_eq_true_eq] at hm
    obtain ⟨hsd, hdep⟩ := hm
    have hq' : (q = e.src ∨ q = e.dst) ∧ resolves_bug revisions bug q = true := by
      rcases List.mem_append.mp hq with h | h
      · by_cases hr : resolves_bug revisions bug e.src
        · simp [hr] at h; subst h; exact ⟨Or.inl rfl, hr⟩
        · simp [hr] at h
      · by_cases hr : resolves_bug revisions bug e.dst
        · simp [hr] at h; subst h; exact ⟨Or.inr rfl, hr⟩
        · simp [hr] at h
    rcases hsd with h | h
    · exact ⟨e.src, h, e, he, hdep, Or.inl rfl, hq'.1, hq'.2⟩
    · exact ⟨e.dst, h, e, he, hdep, Or.inr rfl, hq'.1, hq'.2⟩
  · rintro ⟨p, hp, e, he, hdep, hsd, hq, hres⟩
    refine ⟨e, ⟨he, ?_⟩, ?_⟩
    · simp only [Bool.and_eq_true, Bool.or_eq_true, decide_eq_true_eq]
      constructor
      · rcases hsd with h | h
        · exact Or.inl (h ▸ hp)
        · exact Or.inr (h ▸ hp)
      · exact hdep
    · rcases hq with h | h
      · subst h; simp [hres]
      · subst h
        rcases Classical.em (resolves_bug revisions bug e.src = true) with hr | hr <;>
          simp [hr, hres]

theorem roundRevs_subset {edges : List Edge} {revisions : List Revision} {bug : String}
    {neighbors : Finset String} :
    roundRevs edges revisions bug neighbors ⊆ (revisions.map Revision.phid).toFinset := by
  intro q hq
  obtain ⟨p, _, e, _, _, _, _, hres⟩ := mem_roundRevs_iff.mp hq
  unfold resolves_bug at hres
  obtain ⟨r, hr, hp⟩ := List.any_eq_true.mp hres
  simp only [Bool.and_eq_true, beq_iff_eq] at hp
  simp only [List.mem_toFinset, List.mem_map]
  exact ⟨r, hr, hp.1⟩

/-- The `while neighbors:` loop of `get_stack_size`, carrying the visited
set `stack` and the current frontier `neighbors`.  Each round queries the
matching dependency edges for the frontier, resolves their endpoints to
same-bug revisions, merges the frontier into the visited set, and subtracts
the visited set from the next frontier. -/
def stackLoop (edges : List Edge) (revisions : List Revision) (bug : String)
    (stack neighbors : Finset String) : Finset String :=
  if h : neighbors = ∅ then stack
  else
    stackLoop edges revisions bug (stack ∪ neighbors)
      (roundRevs edges revisions bug neighbors \ (stack ∪ neighbors))
termination_by
  2 * ((((revisions.map Revision.phid).toFinset ∪ neighbors) \ stack).card) +
    (if Disjoint stack neighbors then 0 else 1)
decreasing_by
  have hsub : roundRevs edges revisions bug neighbors \ (stack ∪ neighbors) ⊆
      (revisions.map Revision.phid).toFinset :=
    Finset.Subset.trans (Finset.sdiff_subset) roundRevs_subset
  have hdisj2 : Disjoint (stack ∪ neighbors)
      (roundRevs edges revisions bug neighbors \ (stack ∪ neighbors)) :=
    disjoint_sdiff_self_right
  rw [if_pos hdisj2]
  have hunion : (revisions.map Revision.phid).toFinset ∪
      (roundRevs edges revisions bug neighbors \ (stack ∪ neighbors)) =
      (revisions.map Revision.phid).toFinset := Finset.union_eq_left.mpr hsub
  rw [hunion]
  set R := (revisions.map Revision.phid).toFinset
  have hmono : R \ (stack ∪ neighbors) ⊆ (R ∪ neighbors) \ stack := by
    intro x hx
    simp only [Finset.mem_sdiff, Finset.mem_union] at hx ⊢
    exact ⟨Or.inl hx.1, fun hxs => hx.2 (Or.inl hxs)⟩
  by_cases hd : Disjoint stack neighbors
  · rw [if_pos hd]
    obtain ⟨x, hx⟩ := Finset.nonempty_iff_ne_empty.mpr h
    have hxs : x ∉ stack := Finset.disjoint_right.mp hd hx
    have hss : R \ (stack ∪ neighbors) ⊂ (R ∪ neighbors) \ stack := by
      refine ⟨hmono, fun hback => ?_⟩
      have hx1 : x ∈ (R ∪ neighbors) \ stack := by
        simp only [Finset.mem_sdiff, Finset.mem_union]
        exact ⟨Or.inr hx, hxs⟩
      have hx2 := hback hx1
      simp only [Finset.mem_sdiff, Finset.mem_union] at hx2
      exact hx2.2 (Or.inr hx)
    have := Finset.card_lt_card hss
    omega
  · rw [if_neg hd]
    have := Finset.card_le_card hmono
    omega

/-- The visited set computed by `get_stack_size` for one revision. -/
def stack_finset (revision : Revision) (revisions : List Revision)
    (edges : List Edge) : Finset String :=
  stackLoop edges revisions (bugId revision.title) ∅ {revision.phid}

/-- `get_stack_size`: the size of the visited set of the dependency-stack
traversal seeded at `revision`. -/
def get_stack_size (revision : Revision) (revisions : List Revision)
    (edges : List Edge) : Nat :=
  (stack_finset revision revisions edges).card

/-- One iteration of the `while` loop of `get_stack_size` as a state
transformer on (visited set, frontier). -/
def loop_step (edges : List Edge) (revisions : List Revision) (bug : String)
    (st : Finset String × Finset String) : Finset String × Finset String :=
  (st.1 ∪ st.2, roundRevs edges revisions bug st.2 \ (st.1 ∪ st.2))

/-- Python `s.startswith(p)`: `p` is an initial segment of `s`. -/
def py_startswith (s : String) (p : String) : Bool :=
  p.toList.isPrefixOf s.toList

/-- `desc("dateModified")`: the descending order on reviewer rows used by
`get_last_review_id`. -/
def byDateModifiedDesc (a b : Reviewer) : Prop :=
  b.dateModified ≤ a.dateModified

instance : DecidableRel byDateModifiedDesc :=
  fun a b => Nat.decLe b.dateModified a.dateModified

instance : IsTotal Reviewer byDateModifiedDesc :=
  ⟨fun a b => Nat.le_total b.dateModified a.dateModified⟩

instance : IsTrans Reviewer byDateModifiedDesc :=
  ⟨fun _ _ _ hab hbc => Nat.le_trans hbc hab⟩

/-- `get_last_review_id`: the reviewer rows of the revision, ordered by
`dateModified` descending, `.first()` taken, and its `id` extracted;
`None` when no row exists. -/
def get_last_review_id (revision_phid : String) (reviewers : List Reviewer) : Option Nat :=
  (((reviewers.filter (fun r => r.revisionPHID == revision_phid)).insertionSort
      byDateModifiedDesc).head?).map (·.id)

/-- `get_target_repository`: `.first()` on the matching repository rows and
an attribute access `.uri` on the result, which raises `AttributeError`
when no row matched (`first()` returned `None`). -/
def get_target_repository (repository_phid : String)
    (repos : List RepositoryUri) : Except String String :=
  match (repos.filter (fun r => r.repositoryPHID == repository_phid)).head? with
  | some repository => Except.ok repository.uri
  | none => Except.error "AttributeError"

/-- `get_user_name`: `.one()` on the users matching the author handle. -/
def get_user_name (authorPHID : String) (users : List User) : Except String String := do
  let user ← queryOne (users.filter (fun u => u.phid == authorPHID))
  pure user.userName

/-- One value of the `review_requests` dict built by `get_review_requests`. -/
structure ReviewRequestEntry where
  reviewer : String
  is_group : Bool
  creation_timestamp : Nat
  review_timestamp : Nat
  status : String
deriving DecidableEq, Repr

/-- `get_review_requests`: for each reviewer row of the revision, resolve
the reviewer display name through the project table when the handle starts
with `PHID-PROJ-` and through the user table otherwise (both via `.one()`),
and record the metadata under the key `review-<id>`. -/
def get_review_requests (revision_phid : String) (reviewers : List Reviewer)
    (projects : List Project) (users : List User) :
    Except String (List (String × ReviewRequestEntry)) :=
  buildDict (fun review => do
    let reviewer_name ←
      if py_startswith review.reviewerPHID "PHID-PROJ-" then do
        let reviewer ← queryOne (projects.filter (fun p => p.phid == review.reviewerPHID))
        pure reviewer.name
      else do
        let reviewer ← queryOne (users.filter (fun u => u.phid == review.reviewerPHID))
        pure reviewer.userName
    pure ("review-" ++ toString review.id,
      { reviewer := reviewer_name
        is_group := py_startswith review.reviewerPHID "PHID-PROJ-"
        creation_timestamp := review.dateCreated
        review_timestamp := review.dateModified
        status := review.reviewerStatus }))
    (reviewers.filter (fun r => r.revisionPHID == revision_phid))

/-- The `is_suggestion` computation of `get_changeset_comments`:
`"inline.state.initial" in att and att["inline.state.initial"].get("hassuggestion") == "true"`.
When the key maps to a non-object value, the `.get` attribute access raises
(`AttributeError`), which is an error, not `False`. -/
def is_suggestion_of (att : List (String × Json)) : Except String Bool :=
  match jsonLookup att "inline.state.initial" with
  | none => Except.ok false
  | some (Json.obj inner) =>
      Except.ok (match jsonLookup inner "hassuggestion" with
        | some (Json.str s) => s == "true"
        | _ => false)
  | some _ => Except.error "AttributeError"

/-- One value of the `comments` dict built by `get_changeset_comments`. -/
structure ChangesetCommentEntry where
  author : String
  timestamp : Nat
  character_count : Nat
  is_suggestion : Bool
deriving DecidableEq, Repr

/-- `get_changeset_comments`: for each inline comment row of the changeset,
resolve the author via `.one()`, parse the attributes blob and compute the
suggestion flag, and record the entry under the key `comment-<id>`. -/
def get_changeset_comments (changeset : Changeset)
    (tcomments : List TransactionComment) (users : List User) :
    Except String (List (String × ChangesetCommentEntry)) :=
  buildDict (fun comment => do
    let user ← queryOne (users.filter (fun u => u.phid == comment.authorPHID))
    let is_suggestion ← is_suggestion_of comment.attributes
    pure ("comment-" ++ toString comment.id,
      { author := user.userName
        timestamp := comment.dateCreated
        character_count := comment.content.length
        is_suggestion := is_suggestion }))
    (tcomments.filter (fun c => c.changesetID == changeset.id))

/-- One value of the `changesets` dict built by `get_changesets`. -/
structure ChangesetEntry where
  lines_added : Nat
  lines_removed : Nat
  comments : List (String × ChangesetCommentEntry)
deriving DecidableEq, Repr

/-- `get_changesets`: one entry per changeset row of the diff, keyed
`changeset-<id>`, with line counts and the inline comments. -/
def get_changesets (diff : Differential) (changesets : List Changeset)
    (tcomments : List TransactionComment) (users : List User) :
    Except String (List (String × ChangesetEntry)) :=
  buildDict (fun changeset => do
    let comments ← get_changeset_comments changeset tcomments users
    pure ("changeset-" ++ toString changeset.id,
      { lines_added := changeset.addLines
        lines_removed := changeset.delLines
        comments := comments }))
    (changesets.filter (fun c => c.diffID == diff.id))

/-- One value of the `diffs` dict built by `get_diffs`. -/
structure DiffEntry where
  submission_time : Nat
  author : String
  changesets : List (String × ChangesetEntry)
  review_requests : List (String × ReviewRequestEntry)
deriving DecidableEq, Repr

/-- The two `continue` conditions of `get_diffs`: diffs created by the
landing application identity or by a repository identity are skipped. -/
def diff_excluded (d : Differential) : Bool :=
  d.authorPHID == "PHID-APPS-PhabricatorDiffusionApplication" ||
  py_startswith d.authorPHID "PHID-RIDT-"

/-- `get_diffs`: for each diff row of the revision that is not excluded,
build the entry `diff-<id>` with submission time, resolved author name,
changesets, and the review requests of the revision. -/
def get_diffs (revision : Revision) (diffs : List Differential)
    (changesets : List Changeset) (tcomments : List TransactionComment)
    (reviewers : List Reviewer) (projects : List Project) (users : List User) :
    Except String (List (String × DiffEntry)) :=
  buildDict (fun diff => do
    let author ← get_user_name diff.authorPHID users
    let cs ← get_changesets diff changesets tcomments users
    let rr ← get_review_requests revision.phid reviewers projects users
    pure ("diff-" ++ toString diff.id,
      { submission_time := diff.dateCreated
        author := author
        changesets := cs
        review_requests := rr }))
    ((diffs.filter (fun d => d.revisionID == revision.id)).filter
      (fun d => !diff_excluded d))

/-- One value of the `comments` dict built by `get_comments`. -/
structure CommentEntry where
  author : String
  timestamp : Nat
  character_count : Nat
deriving DecidableEq, Repr

/-- `get_comments`: for each `core:comment` transaction on the revision,
resolve the comment row by its handle via `.one()`, then the author via
`.one()`, and record the entry under the key `comment-<id>`. -/
def get_comments (revision_phid : String) (transactions : List Transaction)
    (tcomments : List TransactionComment) (users : List User) :
    Except String (List (String × CommentEntry)) :=
  buildDict (fun transaction => do
    let comment ← queryOne (tcomments.filter (fun c => c.phid == transaction.commentPHID))
    let user ← queryOne (users.filter (fun u => u.phid == comment.authorPHID))
    pure ("comment-" ++ toString comment.id,
      { author := user.userName
        timestamp := comment.dateCreated
        character_count := comment.content.length }))
    (transactions.filter (fun t =>
      t.objectPHID == revision_phid && t.transactionType == "core:comment"))

theorem subset_stackLoop (edges : List Edge) (revisions : List Revision) (bug : String) :
    ∀ stack neighbors, stack ∪ neighbors ⊆ stackLoop edges revisions bug stack neighbors := by
  intro stack neighbors
  induction stack, neighbors using stackLoop.induct edges revisions bug with
  | case1 stack =>
    rw [stackLoop, dif_pos rfl]
    simp
  | case2 stack neighbors hne ih =>
    rw [stackLoop, dif_neg hne]
    intro x hx
    exact ih (Finset.mem_union_left _ hx)

theorem stackLoop_closed (edges : List Edge) (revisions : List Revision) (bug : String) :
    ∀ stack neighbors,
      (∀ p ∈ stack, ∀ q, dep_step edges revisions bug p q → q ∈ stack ∪ neighbors) →
      ∀ p ∈ stackLoop edges revisions bug stack neighbors, ∀ q,
        dep_step edges revisions bug p q → q ∈ stackLoop edges revisions bug stack neighbors := by
  intro stack neighbors
  induction stack, neighbors using stackLoop.induct edges revisions bug with
  | case1 stack =>
    intro hinv p hp q hq
    rw [stackLoop, dif_pos rfl] at hp ⊢
    have := hinv p hp q hq
    simpa using this
  | case2 stack neighbors hne ih =>
    intro hinv
    rw [stackLoop, dif_neg hne]
    apply ih
    intro p hp q hq
    rcases Finset.mem_union.mp hp with hps | hpn
    · exact Finset.mem_union_left _ (hinv p hps q hq)
    · have hqr : q ∈ roundRevs edges revisions bug neighbors :=
        mem_roundRevs_iff.mpr ⟨p, hpn, hq⟩
      by_cases hqs : q ∈ stack ∪ neighbors
      · exact Finset.mem_union_left _ hqs
      · exact Finset.mem_union_right _ (Finset.mem_sdiff.mpr ⟨hqr, hqs⟩)

theorem stackLoop_sound (edges : List Edge) (revisions : List Revision) (bug : String) :
    ∀ stack neighbors, ∀ x ∈ stackLoop edges revisions bug stack neighbors,
      x ∈ stack ∨ x ∈ neighbors ∨
        ∃ p ∈ neighbors, Relation.TransGen (dep_step edges revisions bug) p x := by
  intro stack neighbors
  induction stack, neighbors using stackLoop.induct edges revisions bug with
  | case1 stack =>
    intro x hx
    rw [stackLoop, dif_pos rfl] at hx
    exact Or.inl hx
  | case2 stack neighbors hne ih =>
    intro x hx
    rw [stackLoop, dif_neg hne] at hx
    rcases ih x hx with h | h | ⟨p', hp', htg⟩
    · rcases Finset.mem_union.mp h with h' | h'
      · exact Or.inl h'
      · exact Or.inr (Or.inl h')
    · obtain ⟨p, hp, hstep⟩ := mem_roundRevs_iff.mp (Finset.mem_sdiff.mp h).1
      exact Or.inr (Or.inr ⟨p, hp, Relation.TransGen.single hstep⟩)
    · obtain ⟨p, hp, hstep⟩ := mem_roundRevs_iff.mp (Finset.mem_sdiff.mp hp').1
      exact Or.inr (Or.inr ⟨p, hp, Relation.TransGen.head hstep htg⟩)

theorem stackLoop_subset_union (edges : List Edge) (revisions : List Revision) (bug : String) :
    ∀ stack neighbors, stackLoop edges revisions bug stack neighbors ⊆
      (revisions.map Revision.phid).toFinset ∪ stack ∪ neighbors := by
  intro stack neighbors
  induction stack, neighbors using stackLoop.induct edges revisions bug with
  | case1 stack =>
    rw [stackLoop, dif_pos rfl]
    intro x hx
    exact Finset.mem_union_left _ (Finset.mem_union_right _ hx)
  | case2 stack neighbors hne ih =>
    rw [stackLoop, dif_neg hne]
    intro x hx
    have := ih hx
    simp only [Finset.mem_union, Finset.mem_sdiff] at this ⊢
    rcases this with (h | h | h) | h
    · exact Or.inl (Or.inl h)
    · exact Or.inl (Or.inr h)
    · exact Or.inr h
    · exact Or.inl (Or.inl (by
        have := roundRevs_subset h.1
        simpa using this))

/-- The visited set of `get_stack_size` is the seed handle together with
everything reachable from it through `dep_step`. -/
theorem stack_finset_coe (revision : Revision) (revisions : List Revision) (edges : List Edge) :
    (stack_finset revision revisions edges : Set String) =
      insert revision.phid
        {q | Relation.TransGen (dep_step edges revisions (bugId revision.title))
          revision.phid q} := by
  apply Set.Subset.antisymm
  · intro x hx
    have hx' : x ∈ stackLoop edges revisions (bugId revision.title) ∅ {revision.phid} := hx
    rcases stackLoop_sound edges revisions (bugId revision.title) ∅ {revision.phid} x hx' with
      h | h | ⟨p, hp, htg⟩
    · exact absurd h (Finset.not_mem_empty x)
    · exact Or.inl (Finset.mem_singleton.mp h)
    · exact Or.inr (by
        have hp' : p = revision.phid := Finset.mem_singleton.mp hp
        exact hp' ▸ htg)
  · intro x hx
    have hseed : revision.phid ∈ stackLoop edges revisions (bugId revision.title)
        ∅ {revision.phid} :=
      subset_stackLoop edges revisions (bugId revision.title) ∅ {revision.phid} (by simp)
    have hclosed := stackLoop_closed edges revisions (bugId revision.title) ∅ {revision.phid}
      (by intro p hp; exact absurd hp (Finset.not_mem_empty p))
    rcases hx with hx | hx
    · exact hx ▸ hseed
    · have htg : Relation.TransGen (dep_step edges revisions (bugId revision.title))
          revision.phid x := hx
      clear hx
      induction htg with
      | single h1 => exact hclosed _ hseed _ h1
      | tail _ h2 ih => exact hclosed _ ih _ h2

theorem dep_step_ok {edges : List Edge} {revisions : List Revision} {bug : String}
    {p q : String} (h : dep_step edges revisions bug p q) :
    resolves_bug revisions bug q = true := by
  obtain ⟨e, _, _, _, _, hres⟩ := h
  exact hres

theorem dep_step_symm {edges : List Edge} {revisions : List Revision} {bug : String}
    {p q : String} (hok : resolves_bug revisions bug p = true)
    (h : dep_step edges revisions bug p q) : dep_step edges revisions bug q p := by
  obtain ⟨e, he, hdep, hsd, hq, _⟩ := h
  exact ⟨e, he, hdep, hq.imp Eq.symm Eq.symm, hsd.imp Eq.symm Eq.symm, hok⟩

theorem transGen_ok {edges : List Edge} {revisions : List Revision} {bug : String}
    {p q : String} (h : Relation.TransGen (dep_step edges revisions bug) p q) :
    resolves_bug revisions bug q = true := by
  induction h with
  | single h1 => exact dep_step_ok h1
  | tail _ h2 _ => exact dep_step_ok h2

theorem transGen_symm {edges : List Edge} {revisions : List Revision} {bug : String}
    {p q : String} (hok : resolves_bug revisions bug p = true)
    (h : Relation.TransGen (dep_step edges revisions bug) p q) :
    Relation.TransGen (dep_step edges revisions bug) q p := by
  induction h with
  | single h1 => exact Relation.TransGen.single (dep_step_symm hok h1)
  | tail h1 h2 ih =>
    exact Relation.TransGen.trans
      (Relation.TransGen.single (dep_step_symm (transGen_ok h1) h2)) ih

theorem reach_insert_eq {edges : List Edge} {revisions : List Revision} {bug : String}
    {a b : String} (hoka : resolves_bug revisions bug a = true)
    (hab : Relation.ReflTransGen (dep_step edges revisions bug) a b) :
    insert a {q | Relation.TransGen (dep_step edges revisions bug) a q} =
      insert b {q | Relation.TransGen (dep_step edges revisions bug) b q} := by
  rcases (Relation.reflTransGen_iff_eq_or_transGen.mp hab) with h | htg
  · rw [h]
  · have hba : Relation.TransGen (dep_step edges revisions bug) b a := transGen_symm hoka htg
    ext x
    simp only [Set.mem_insert_iff, Set.mem_setOf_eq]
    constructor
    · rintro (rfl | hx)
      · exact Or.inr hba
      · exact Or.inr (Relation.TransGen.trans hba hx)
    · rintro (rfl | hx)
      · exact Or.inr htg
      · exact Or.inr (Relation.TransGen.trans htg hx)

/-- Claim C1: a revision whose handle occurs as neither `src` nor `dst` in any
edge with one of the two dependency type codes has stack size 1. -/
theorem stack_size_of_no_dep_edges (revision : Revision) (revisions : List Revision)
    (edges : List Edge)
    (h : ∀ e ∈ edges, dep_edge e = true → e.src ≠ revision.phid ∧ e.dst ≠ revision.phid) :
    get_stack_size revision revisions edges = 1 := by
  have hround : roundRevs edges revisions (bugId revision.title) {revision.phid} = ∅ := by
    apply Finset.eq_empty_iff_forall_not_mem.mpr
    intro q hq
    obtain ⟨p, hp, e, he, hdep, hsd, _, _⟩ := mem_roundRevs_iff.mp hq
    have hp' : p = revision.phid := Finset.mem_singleton.mp hp
    obtain ⟨h1, h2⟩ := h e he hdep
    rcases hsd with hh | hh
    · exact h1 (hp' ▸ hh)
    · exact h2 (hp' ▸ hh)
  unfold get_stack_size stack_finset
  rw [stackLoop, dif_neg (Finset.singleton_ne_empty _), hround]
  have hemp : (∅ : Finset String) \ (∅ ∪ {revision.phid}) = ∅ := by simp
  rw [hemp, stackLoop, dif_pos rfl]
  simp

/-- Witness for C1: a store with one revision and one unrelated dependency
edge; the stack size is 1. -/
theorem stack_size_of_no_dep_edges_witness :
    (∀ e ∈ [(⟨"A", "B", 5⟩ : Edge)], dep_edge e = true →
      e.src ≠ (⟨1, "P1", "BUG1 - x", 0, "open", "R"⟩ : Revision).phid ∧
      e.dst ≠ (⟨1, "P1", "BUG1 - x", 0, "open", "R"⟩ : Revision).phid) ∧
    get_stack_size ⟨1, "P1", "BUG1 - x", 0, "open", "R"⟩
      [⟨1, "P1", "BUG1 - x", 0, "open", "R"⟩] [⟨"A", "B", 5⟩] = 1 :=
  ⟨by decide, stack_size_of_no_dep_edges _ _ _ (by decide)⟩

/-- Claim C2: two revisions of the collection joined by a chain of dependency
edges along which every revision carries the same bug-identifier prefix
yield the same stack size. -/
theorem stack_size_chain_eq (A B : Revision) (revisions : List Revision) (edges : List Edge)
    (hA : A ∈ revisions) (hB : B ∈ revisions)
    (hbug : bugId A.title = bugId B.title)
    (hchain : Relation.ReflTransGen (dep_step edges revisions (bugId A.title))
      A.phid B.phid) :
    get_stack_size A revisions edges = get_stack_size B revisions edges := by
  have hoka : resolves_bug revisions (bugId A.title) A.phid = true := by
    unfold resolves_bug
    exact List.any_eq_true.mpr ⟨A, hA, by simp⟩
  have hcoe : (stack_finset A revisions edges : Set String) =
      (stack_finset B revisions edges : Set String) := by
    rw [stack_finset_coe, stack_finset_coe, ← hbug]
    exact reach_insert_eq hoka hchain
  unfold get_stack_size
  rw [Finset.coe_injective hcoe]

/-- Claim C3: the traversal loop of `get_stack_size` reaches an empty frontier in
finitely many rounds, the returned count is the cardinality of the visited
set of that final state (each handle counted once however many edge paths
reach it), and it never exceeds the number of distinct revision handles
plus one. -/
theorem stack_loop_terminates (revision : Revision) (revisions : List Revision)
    (edges : List Edge) :
    (∃ n, ((loop_step edges revisions (bugId revision.title))^[n]
        (∅, {revision.phid})).2 = ∅ ∧
      get_stack_size revision revisions edges =
        (((loop_step edges revisions (bugId revision.title))^[n]
          (∅, {revision.phid})).1).card) ∧
    get_stack_size revision revisions edges ≤
      (revisions.map Revision.phid).toFinset.card + 1 := by
  constructor
  · have key : ∀ stack neighbors,
        ∃ n, ((loop_step edges revisions (bugId revision.title))^[n]
            (stack, neighbors)).2 = ∅ ∧
          stackLoop edges revisions (bugId revision.title) stack neighbors =
            ((loop_step edges revisions (bugId revision.title))^[n]
              (stack, neighbors)).1 := by
      intro stack neighbors
      induction stack, neighbors using
          stackLoop.induct edges revisions (bugId revision.title) with
      | case1 stack =>
        exact ⟨0, rfl, by rw [stackLoop, dif_pos rfl, Function.iterate_zero_apply]⟩
      | case2 stack neighbors hne ih =>
        obtain ⟨m, h1, h2⟩ := ih
        refine ⟨m + 1, ?_, ?_⟩
        · rw [Function.iterate_succ_apply]
          exact h1
        · rw [stackLoop, dif_neg hne, Function.iterate_succ_apply]
          exact h2
    obtain ⟨n, h1, h2⟩ := key ∅ {revision.phid}
    exact ⟨n, h1, by unfold get_stack_size stack_finset; rw [h2]⟩
  · have hsub : stack_finset revision revisions edges ⊆
        insert revision.phid (revisions.map Revision.phid).toFinset := by
      intro x hx
      have := stackLoop_subset_union edges revisions (bugId revision.title)
        ∅ {revision.phid} hx
      simp only [Finset.union_empty, Finset.mem_union, Finset.mem_singleton,
        Finset.union_assoc, Finset.empty_union] at this
      rcases this with h | h
      · exact Finset.mem_insert_of_mem h
      · exact Finset.mem_insert.mpr (Or.inl h)
    calc (stack_finset revision revisions edges).card
        ≤ (insert revision.phid (revisions.map Revision.phid).toFinset).card :=
          Finset.card_le_card hsub
      _ ≤ (revisions.map Revision.phid).toFinset.card + 1 := Finset.card_insert_le _ _

/-- Claim C9: a handle that is no revision's `phid` (and is not the seed) is never
in the visited set, so `get_stack_size` — which is total, hence never
fails — does not count it; removing it from the visited set leaves the
returned count unchanged. -/
theorem stack_skips_unresolved (revision : Revision) (revisions : List Revision)
    (edges : List Edge) (p : String)
    (hp : ∀ r ∈ revisions, r.phid ≠ p) (hne : p ≠ revision.phid) :
    p ∉ stack_finset revision revisions edges ∧
    get_stack_size revision revisions edges =
      ((stack_finset revision revisions edges).erase p).card := by
  have hmem : p ∉ stack_finset revision revisions edges := by
    intro hmem
    have hmem' : p ∈ (stack_finset revision revisions edges : Set String) := hmem
    rw [stack_finset_coe] at hmem'
    rcases hmem' with h | h
    · exact hne h
    · have hok := transGen_ok h
      obtain ⟨r, hr, hb⟩ := List.any_eq_true.mp hok
      rw [Bool.and_eq_true, beq_iff_eq] at hb
      exact hp r hr hb.1
  exact ⟨hmem, by unfold get_stack_size; rw [Finset.erase_eq_of_not_mem hmem]⟩

/-- Witness for C2: two same-bug revisions joined by one dependency edge have
equal stack sizes. -/
theorem stack_size_chain_eq_witness :
    (⟨1, "P1", "BUG1 - part1", 0, "open", "R"⟩ : Revision) ∈
      ([⟨1, "P1", "BUG1 - part1", 0, "open", "R"⟩,
        ⟨2, "P2", "BUG1 - part2", 0, "open", "R"⟩] : List Revision) ∧
    (⟨2, "P2", "BUG1 - part2", 0, "open", "R"⟩ : Revision) ∈
      ([⟨1, "P1", "BUG1 - part1", 0, "open", "R"⟩,
        ⟨2, "P2", "BUG1 - part2", 0, "open", "R"⟩] : List Revision) ∧
    bugId "BUG1 - part1" = bugId "BUG1 - part2" ∧
    get_stack_size ⟨1, "P1", "BUG1 - part1", 0, "open", "R"⟩
        [⟨1, "P1", "BUG1 - part1", 0, "open", "R"⟩,
         ⟨2, "P2", "BUG1 - part2", 0, "open", "R"⟩] [⟨"P1", "P2", 5⟩] =
      get_stack_size ⟨2, "P2", "BUG1 - part2", 0, "open", "R"⟩
        [⟨1, "P1", "BUG1 - part1", 0, "open", "R"⟩,
         ⟨2, "P2", "BUG1 - part2", 0, "open", "R"⟩] [⟨"P1", "P2", 5⟩] :=
  ⟨by decide, by decide, by decide,
    stack_size_chain_eq _ _ _ _ (by decide) (by decide) (by decide)
      (Relation.ReflTransGen.single
        ⟨⟨"P1", "P2", 5⟩, by decide, by decide, Or.inl rfl, Or.inr rfl, by decide⟩)⟩

/-- Witness for C9: an edge pointing at a handle that is no revision's `phid`;
the handle is skipped and uncounted. -/
theorem stack_skips_unresolved_witness :
    (∀ r ∈ ([⟨1, "P1", "BUG1 - x", 0, "open", "R"⟩] : List Revision), r.phid ≠ "GHOST") ∧
    "GHOST" ≠ (⟨1, "P1", "BUG1 - x", 0, "open", "R"⟩ : Revision).phid ∧
    ("GHOST" ∉ stack_finset ⟨1, "P1", "BUG1 - x", 0, "open", "R"⟩
        [⟨1, "P1", "BUG1 - x", 0, "open", "R"⟩] [⟨"P1", "GHOST", 5⟩] ∧
      get_stack_size ⟨1, "P1", "BUG1 - x", 0, "open", "R"⟩
          [⟨1, "P1", "BUG1 - x", 0, "open", "R"⟩] [⟨"P1", "GHOST", 5⟩] =
        ((stack_finset ⟨1, "P1", "BUG1 - x", 0, "open", "R"⟩
          [⟨1, "P1", "BUG1 - x", 0, "open", "R"⟩] [⟨"P1", "GHOST", 5⟩]).erase "GHOST").card) :=
  ⟨by decide, by decide,
    stack_skips_unresolved _ _ _ _ (by decide) (by decide)⟩

theorem except_bind_ok {α β : Type} (a : α) (f : α → Except String β) :
    (Except.ok a >>= f) = f a := rfl

theorem except_bind_error {α β : Type} (e : String) (f : α → Except String β) :
    ((Except.error e : Except String α) >>= f) = Except.error e := rfl

theorem except_pure {β : Type} (b : β) : (pure b : Except String β) = Except.ok b := rfl

theorem buildDict_ok_mem {α β : Type} {f : α → Except String β} :
    ∀ {l : List α} {res : List β}, buildDict f l = Except.ok res →
      ∀ b ∈ res, ∃ a ∈ l, f a = Except.ok b := by
  intro l
  induction l with
  | nil =>
    intro res h b hb
    simp only [buildDict, Except.ok.injEq] at h
    subst h
    cases hb
  | cons a t ih =>
    intro res h b hb
    rw [show buildDict f (a :: t) =
        (f a >>= fun b0 => buildDict f t >>= fun r => pure (b0 :: r)) from rfl] at h
    cases hfa : f a with
    | error e => rw [hfa, except_bind_error] at h; cases h
    | ok b0 =>
      rw [hfa, except_bind_ok] at h
      cases hrest : buildDict f t with
      | error e => rw [hrest, except_bind_error] at h; cases h
      | ok r =>
        rw [hrest, except_bind_ok, except_pure, Except.ok.injEq] at h
        subst h
        rcases List.mem_cons.mp hb with rfl | hb'
        · exact ⟨a, List.mem_cons_self a t, hfa⟩
        · obtain ⟨a', ha', hfa'⟩ := ih hrest b hb'
          exact ⟨a', List.mem_cons_of_mem a ha', hfa'⟩

theorem buildDict_ok_forall {α β : Type} {f : α → Except String β} :
    ∀ {l : List α} {res : List β}, buildDict f l = Except.ok res →
      ∀ a ∈ l, ∃ b, f a = Except.ok b := by
  intro l
  induction l with
  | nil =>
    intro res _ a ha
    cases ha
  | cons a t ih =>
    intro res h a' ha'
    rw [show buildDict f (a :: t) =
        (f a >>= fun b0 => buildDict f t >>= fun r => pure (b0 :: r)) from rfl] at h
    cases hfa : f a with
    | error e => rw [hfa, except_bind_error] at h; cases h
    | ok b0 =>
      rw [hfa, except_bind_ok] at h
      cases hrest : buildDict f t with
      | error e => rw [hrest, except_bind_error] at h; cases h
      | ok r =>
        rcases List.mem_cons.mp ha' with rfl | ha''
        · exact ⟨b0, hfa⟩
        · exact ih hrest a' ha''

theorem queryOne_ok_iff {α : Type} {l : List α} {x : α} :
    queryOne l = Except.ok x ↔ l = [x] := by
  cases l with
  | nil => simp [queryOne]
  | cons a t =>
    cases t with
    | nil => simp [queryOne]
    | cons b t' => simp [queryOne]

theorem queryOne_ok_length {α : Type} {l : List α} :
    (∃ x, queryOne l = Except.ok x) ↔ l.length = 1 := by
  cases l with
  | nil => simp [queryOne]
  | cons a t =>
    cases t with
    | nil => simp [queryOne]
    | cons b t' => simp [queryOne]

/-- Claim C8: `get_last_review_id` returns `none` exactly when the revision has
no reviewer rows, and otherwise the id of a reviewer row of that revision
whose `dateModified` is maximal (descending sort, first row taken). -/
theorem get_last_review_id_spec (revision_phid : String) (reviewers : List Reviewer) :
    (get_last_review_id revision_phid reviewers = none ↔
      reviewers.filter (fun r => r.revisionPHID == revision_phid) = []) ∧
    ∀ i, get_last_review_id revision_phid reviewers = some i →
      ∃ r ∈ reviewers.filter (fun r => r.revisionPHID == revision_phid),
        r.id = i ∧
        ∀ r' ∈ reviewers.filter (fun r => r.revisionPHID == revision_phid),
          r'.dateModified ≤ r.dateModified := by
  have hperm := List.perm_insertionSort byDateModifiedDesc
    (reviewers.filter (fun r => r.revisionPHID == revision_phid))
  have hsorted := List.sorted_insertionSort byDateModifiedDesc
    (reviewers.filter (fun r => r.revisionPHID == revision_phid))
  unfold get_last_review_id
  constructor
  · constructor
    · intro h
      have h1 : ((reviewers.filter (fun r => r.revisionPHID == revision_phid)).insertionSort
          byDateModifiedDesc) = [] := by
        rcases Option.map_eq_none'.mp h with h2
        exact List.head?_eq_none_iff.mp h2
      have := h1 ▸ hperm
      exact (List.Perm.eq_nil this.symm)
    · intro h
      rw [h]
      rfl
  · intro i hi
    cases hs : (reviewers.filter (fun r => r.revisionPHID == revision_phid)).insertionSort
        byDateModifiedDesc with
    | nil =>
      rw [hs] at hi
      cases hi
    | cons x xs =>
      rw [hs] at hi
      have hxid : x.id = i := by
        simpa using hi
      have hx : x ∈ reviewers.filter (fun r => r.revisionPHID == revision_phid) :=
        hperm.subset (hs ▸ List.mem_cons_self x xs)
      refine ⟨x, hx, hxid, ?_⟩
      intro r' hr'
      have hr's : r' ∈ x :: xs := hs ▸ hperm.symm.subset hr'
      rcases List.mem_cons.mp hr's with rfl | h'
      · exact le_refl _
      · exact (List.sorted_cons.mp (hs ▸ hsorted)).1 r' h'

/-- Witness for C8: two reviewer rows for the revision; the one with the later
`dateModified` is reported. -/
theorem get_last_review_id_spec_witness :
    get_last_review_id "RP" [⟨7, "RP", "X", 0, 50, "s"⟩, ⟨8, "RP", "Y", 0, 90, "s"⟩] =
      some 8 ∧
    ∃ r ∈ ([⟨7, "RP", "X", 0, 50, "s"⟩, ⟨8, "RP", "Y", 0, 90, "s"⟩] : List Reviewer).filter
        (fun r => r.revisionPHID == "RP"),
      r.id = 8 ∧
      ∀ r' ∈ ([⟨7, "RP", "X", 0, 50, "s"⟩, ⟨8, "RP", "Y", 0, 90, "s"⟩] : List Reviewer).filter
          (fun r => r.revisionPHID == "RP"),
        r'.dateModified ≤ r.dateModified :=
  ⟨rfl, (get_last_review_id_spec "RP"
    [⟨7, "RP", "X", 0, 50, "s"⟩, ⟨8, "RP", "Y", 0, 90, "s"⟩]).2 8 rfl⟩

/-- Counterexample for C7: two repository rows match the handle, yet
`get_target_repository` raises no error and returns the first row's URI,
refuting "fatal when more than one repository record matches". -/
theorem get_target_repository_multiple_not_fatal :
    get_target_repository "PHID-REPO-1"
      [⟨"PHID-REPO-1", "uri1"⟩, ⟨"PHID-REPO-1", "uri2"⟩] = Except.ok "uri1" := rfl

/-- Claim C7, amended: the author lookup succeeds exactly when one user row
matches (zero or multiple raise); the target-repository lookup fails
exactly when no repository row matches — with several matches it returns
the first row's URI; and a successful `get_comments` forces every matched
transaction to resolve to exactly one comment row whose author resolves to
exactly one user row, so zero or multiple matches in those lookups abort
the run. -/
theorem lookup_integrity (aphid rphid vphid : String) (users : List User)
    (repos : List RepositoryUri) (transactions : List Transaction)
    (tcomments : List TransactionComment) (res : List (String × CommentEntry)) :
    ((∃ s, get_user_name aphid users = Except.ok s) ↔
      (users.filter (fun u => u.phid == aphid)).length = 1) ∧
    ((∃ s, get_target_repository rphid repos = Except.ok s) ↔
      repos.filter (fun r => r.repositoryPHID == rphid) ≠ []) ∧
    (∀ r rest, repos.filter (fun r => r.repositoryPHID == rphid) = r :: rest →
      get_target_repository rphid repos = Except.ok r.uri) ∧
    (get_comments vphid transactions tcomments users = Except.ok res →
      ∀ t ∈ transactions.filter (fun t =>
          t.objectPHID == vphid && t.transactionType == "core:comment"),
        (tcomments.filter (fun c => c.phid == t.commentPHID)).length = 1 ∧
        ∀ c ∈ tcomments.filter (fun c => c.phid == t.commentPHID),
          (users.filter (fun u => u.phid == c.authorPHID)).length = 1) := by
  refine ⟨?_, ?_, ?_, ?_⟩
  · constructor
    · rintro ⟨s, hs⟩
      apply queryOne_ok_length.mp
      unfold get_user_name at hs
      cases hq : queryOne (users.filter (fun u => u.phid == aphid)) with
      | error e => rw [hq, except_bind_error] at hs; cases hs
      | ok u => exact ⟨u, rfl⟩
    · intro h
      obtain ⟨u, hu⟩ := queryOne_ok_length.mpr h
      exact ⟨u.userName, by unfold get_user_name; rw [hu, except_bind_ok]; rfl⟩
  · unfold get_target_repository
    cases hl : repos.filter (fun r => r.repositoryPHID == rphid) with
    | nil => simp
    | cons a t => simp
  · intro r rest hl
    unfold get_target_repository
    rw [hl]
    rfl
  · intro hok t ht
    obtain ⟨entry, hf⟩ := buildDict_ok_forall hok t ht
    cases hq1 : queryOne (tcomments.filter (fun c => c.phid == t.commentPHID)) with
    | error e => rw [hq1, except_bind_error] at hf; cases hf
    | ok c =>
      rw [hq1, except_bind_ok] at hf
      have hl1 : tcomments.filter (fun c => c.phid == t.commentPHID) = [c] :=
        queryOne_ok_iff.mp hq1
      refine ⟨by rw [hl1]; rfl, ?_⟩
      intro c' hc'
      rw [hl1] at hc'
      rcases List.mem_cons.mp hc' with rfl | hc''
      · cases hq2 : queryOne (users.filter (fun u => u.phid == c'.authorPHID)) with
        | error e => rw [hq2, except_bind_error] at hf; cases hf
        | ok u => exact queryOne_ok_length.mp ⟨u, hq2⟩
      · cases hc''

/-- Witness for C7: a single matching user row makes the author lookup succeed;
an empty repository table makes the target-repository lookup fail. -/
theorem lookup_integrity_witness :
    (∃ s, get_user_name "U1" [⟨"U1", "alice"⟩] = Except.ok s) ∧
    ¬(∃ s, get_target_repository "RQ" ([] : List RepositoryUri) = Except.ok s) :=
  ⟨(lookup_integrity "U1" "RQ" "V" [⟨"U1", "alice"⟩] [] [] [] []).1.mpr (by decide),
   fun h => ((lookup_integrity "U1" "RQ" "V" [⟨"U1", "alice"⟩] [] [] [] []).2.1.mp h)
     (by decide)⟩

theorem get_diffs_entry_spec {revision : Revision} {diffs : List Differential}
    {changesets : List Changeset} {tcomments : List TransactionComment}
    {reviewers : List Reviewer} {projects : List Project} {users : List User}
    {res : List (String × DiffEntry)}
    (hok : get_diffs revision diffs changesets tcomments reviewers projects users =
      Except.ok res) :
    ∀ entry ∈ res, ∃ d ∈ diffs, d.revisionID = revision.id ∧ diff_excluded d = false ∧
      entry.1 = "diff-" ++ toString d.id ∧
      get_review_requests revision.phid reviewers projects users =
        Except.ok entry.2.review_requests := by
  intro entry hentry
  obtain ⟨d, hd, hfd⟩ := buildDict_ok_mem hok entry hentry
  have hd1 := List.mem_filter.mp hd
  have hd2 := List.mem_filter.mp hd1.1
  cases ha : get_user_name d.authorPHID users with
  | error e => rw [ha, except_bind_error] at hfd; cases hfd
  | ok author =>
    rw [ha, except_bind_ok] at hfd
    cases hcs : get_changesets d changesets tcomments users with
    | error e => rw [hcs, except_bind_error] at hfd; cases hfd
    | ok cs =>
      rw [hcs, except_bind_ok] at hfd
      cases hrr : get_review_requests revision.phid reviewers projects users with
      | error e => rw [hrr, except_bind_error] at hfd; cases hfd
      | ok rr =>
        rw [hrr, except_bind_ok, except_pure, Except.ok.injEq] at hfd
        subst hfd
        exact ⟨d, hd2.1, by simpa using hd2.2, by simpa using hd1.2, rfl, rfl⟩

/-- Claim C4: a diff authored by the landing application identity
`PHID-APPS-PhabricatorDiffusionApplication` or by a repository identity
(`PHID-RIDT-` prefixed) never contributes a key to the mapping returned by
`get_diffs`, provided the diff keys of the store are pairwise distinct. -/
theorem get_diffs_excludes (revision : Revision) (diffs : List Differential)
    (changesets : List Changeset) (tcomments : List TransactionComment)
    (reviewers : List Reviewer) (projects : List Project) (users : List User)
    (res : List (String × DiffEntry)) (d : Differential)
    (hok : get_diffs revision diffs changesets tcomments reviewers projects users =
      Except.ok res)
    (hd : d ∈ diffs)
    (hexcl : d.authorPHID = "PHID-APPS-PhabricatorDiffusionApplication" ∨
      py_startswith d.authorPHID "PHID-RIDT-" = true)
    (hnodup : (diffs.map (fun x => "diff-" ++ toString x.id)).Nodup) :
    ("diff-" ++ toString d.id) ∉ res.map Prod.fst := by
  intro hkey
  obtain ⟨entry, hentry, hk⟩ := List.mem_map.mp hkey
  obtain ⟨d', hd', _, hd'not, hkeq, _⟩ := get_diffs_entry_spec hok entry hentry
  have hdd : d' = d := List.inj_on_of_nodup_map hnodup hd' hd (hkeq.symm.trans hk)
  rw [hdd] at hd'not
  unfold diff_excluded at hd'not
  rcases hexcl with h | h
  · rw [h] at hd'not
    simp at hd'not
  · rw [h] at hd'not
    simp at hd'not

/-- Witness for C4: a store with one landing-identity diff, one
repository-identity diff, and one human diff; neither synthetic diff's key
appears in the mapping. -/
theorem get_diffs_excludes_witness :
    get_diffs ⟨10, "PHID-DREV-10", "BUG2 - x", 0, "open", "R"⟩
        [⟨1, 10, "PHID-APPS-PhabricatorDiffusionApplication", 100⟩,
         ⟨2, 10, "PHID-USER-1", 200⟩, ⟨3, 10, "PHID-RIDT-abc", 300⟩]
        [] [] [] [] [⟨"PHID-USER-1", "alice"⟩] =
      Except.ok [("diff-2", ⟨200, "alice", [], []⟩)] ∧
    ("diff-" ++ toString 1) ∉
      ([("diff-2", (⟨200, "alice", [], []⟩ : DiffEntry))].map Prod.fst) ∧
    ("diff-" ++ toString 3) ∉
      ([("diff-2", (⟨200, "alice", [], []⟩ : DiffEntry))].map Prod.fst) :=
  ⟨rfl,
   get_diffs_excludes ⟨10, "PHID-DREV-10", "BUG2 - x", 0, "open", "R"⟩
     [⟨1, 10, "PHID-APPS-PhabricatorDiffusionApplication", 100⟩,
      ⟨2, 10, "PHID-USER-1", 200⟩, ⟨3, 10, "PHID-RIDT-abc", 300⟩]
     [] [] [] [] [⟨"PHID-USER-1", "alice"⟩]
     [("diff-2", ⟨200, "alice", [], []⟩)]
     ⟨1, 10, "PHID-APPS-PhabricatorDiffusionApplication", 100⟩ rfl
     (by decide) (Or.inl rfl) (by decide),
   get_diffs_excludes ⟨10, "PHID-DREV-10", "BUG2 - x", 0, "open", "R"⟩
     [⟨1, 10, "PHID-APPS-PhabricatorDiffusionApplication", 100⟩,
      ⟨2, 10, "PHID-USER-1", 200⟩, ⟨3, 10, "PHID-RIDT-abc", 300⟩]
     [] [] [] [] [⟨"PHID-USER-1", "alice"⟩]
     [("diff-2", ⟨200, "alice", [], []⟩)]
     ⟨3, 10, "PHID-RIDT-abc", 300⟩ rfl
     (by decide) (Or.inr (by decide)) (by decide)⟩

/-- Claim C10: every diff entry of a revision embeds the review-request mapping
computed from the revision's handle alone, so any two diff entries carry
identical review-request mappings. -/
theorem get_diffs_review_requests_const (revision : Revision) (diffs : List Differential)
    (changesets : List Changeset) (tcomments : List TransactionComment)
    (reviewers : List Reviewer) (projects : List Project) (users : List User)
    (res : List (String × DiffEntry))
    (hok : get_diffs revision diffs changesets tcomments reviewers projects users =
      Except.ok res) :
    ∀ e1 ∈ res, ∀ e2 ∈ res,
      e1.2.review_requests = e2.2.review_requests ∧
      get_review_requests revision.phid reviewers projects users =
        Except.ok e1.2.review_requests := by
  intro e1 h1 e2 h2
  obtain ⟨d1, _, _, _, _, hr1⟩ := get_diffs_entry_spec hok e1 h1
  obtain ⟨d2, _, _, _, _, hr2⟩ := get_diffs_entry_spec hok e2 h2
  exact ⟨Except.ok.inj (hr1.symm.trans hr2), hr1⟩

/-- Witness for C10: two human diffs on one revision with one reviewer; both
diff entries carry the same review-request mapping. -/
theorem get_diffs_review_requests_const_witness :
    get_diffs ⟨10, "PHID-DREV-10", "BUG2 - x", 0, "open", "R"⟩
        [⟨2, 10, "PHID-USER-1", 200⟩, ⟨4, 10, "PHID-USER-1", 400⟩]
        [] [] [⟨7, "PHID-DREV-10", "PHID-USER-1", 1, 2, "accepted"⟩] []
        [⟨"PHID-USER-1", "alice"⟩] =
      Except.ok
        [("diff-2", ⟨200, "alice", [], [("review-7", ⟨"alice", false, 1, 2, "accepted"⟩)]⟩),
         ("diff-4", ⟨400, "alice", [], [("review-7", ⟨"alice", false, 1, 2, "accepted"⟩)]⟩)] ∧
    ∀ e1 ∈ ([("diff-2", ⟨200, "alice", [],
          [("review-7", ⟨"alice", false, 1, 2, "accepted"⟩)]⟩),
        ("diff-4", ⟨400, "alice", [],
          [("review-7", ⟨"alice", false, 1, 2, "accepted"⟩)]⟩)] :
        List (String × DiffEntry)),
      ∀ e2 ∈ ([("diff-2", ⟨200, "alice", [],
          [("review-7", ⟨"alice", false, 1, 2, "accepted"⟩)]⟩),
        ("diff-4", ⟨400, "alice", [],
          [("review-7", ⟨"alice", false, 1, 2, "accepted"⟩)]⟩)] :
        List (String × DiffEntry)),
        e1.2.review_requests = e2.2.review_requests ∧
        get_review_requests "PHID-DREV-10"
            [⟨7, "PHID-DREV-10", "PHID-USER-1", 1, 2, "accepted"⟩] []
            [⟨"PHID-USER-1", "alice"⟩] =
          Except.ok e1.2.review_requests :=
  ⟨rfl, get_diffs_review_requests_const ⟨10, "PHID-DREV-10", "BUG2 - x", 0, "open", "R"⟩
    [⟨2, 10, "PHID-USER-1", 200⟩, ⟨4, 10, "PHID-USER-1", 400⟩]
    [] [] [⟨7, "PHID-DREV-10", "PHID-USER-1", 1, 2, "accepted"⟩] []
    [⟨"PHID-USER-1", "alice"⟩]
    [("diff-2", ⟨200, "alice", [], [("review-7", ⟨"alice", false, 1, 2, "accepted"⟩)]⟩),
     ("diff-4", ⟨400, "alice", [], [("review-7", ⟨"alice", false, 1, 2, "accepted"⟩)]⟩)]
    rfl⟩

theorem is_suggestion_of_spec {att : List (String × Json)} {b : Bool}
    (h : is_suggestion_of att = Except.ok b) :
    (b = true ↔ ∃ inner, jsonLookup att "inline.state.initial" = some (Json.obj inner) ∧
      jsonLookup inner "hassuggestion" = some (Json.str "true")) := by
  unfold is_suggestion_of at h
  cases hl : jsonLookup att "inline.state.initial" with
  | none =>
    rw [hl] at h
    have hb : false = b := Except.ok.inj h
    rw [← hb]
    simp [hl]
  | some v =>
    rw [hl] at h
    cases v with
    | null => exact Except.noConfusion h
    | bool bb => exact Except.noConfusion h
    | num n => exact Except.noConfusion h
    | str s => exact Except.noConfusion h
    | arr elems => exact Except.noConfusion h
    | obj inner =>
      have hb : (match jsonLookup inner "hassuggestion" with
          | some (Json.str s) => s == "true"
          | _ => false) = b := Except.ok.inj h
      rw [← hb]
      cases hli : jsonLookup inner "hassuggestion" with
      | none => simp [hli]
      | some w =>
        cases w with
        | str s => simp [hli]
        | null => simp [hli]
        | bool bb => simp [hli]
        | num n => simp [hli]
        | arr elems => simp [hli]
        | obj fs => simp [hli]

/-- Claim C5: in a successfully materialized inline-comment record, the
`is_suggestion` field is true exactly when the comment's parsed attributes
contain the key `inline.state.initial` whose nested value for
`hassuggestion` is the string `"true"`; a missing key or any other value
gives false. -/
theorem changeset_comments_suggestion (changeset : Changeset)
    (tcomments : List TransactionComment) (users : List User)
    (res : List (String × ChangesetCommentEntry))
    (hok : get_changeset_comments changeset tcomments users = Except.ok res) :
    ∀ entry ∈ res, ∃ c ∈ tcomments, c.changesetID = changeset.id ∧
      entry.1 = "comment-" ++ toString c.id ∧
      (entry.2.is_suggestion = true ↔
        ∃ inner, jsonLookup c.attributes "inline.state.initial" = some (Json.obj inner) ∧
          jsonLookup inner "hassuggestion" = some (Json.str "true")) := by
  intro entry hentry
  obtain ⟨c, hc, hfc⟩ := buildDict_ok_mem hok entry hentry
  have hc1 := List.mem_filter.mp hc
  cases hu : queryOne (users.filter (fun u => u.phid == c.authorPHID)) with
  | error e => rw [hu, except_bind_error] at hfc; cases hfc
  | ok user =>
    rw [hu, except_bind_ok] at hfc
    cases hsug : is_suggestion_of c.attributes with
    | error e => rw [hsug, except_bind_error] at hfc; cases hfc
    | ok b =>
      rw [hsug, except_bind_ok, except_pure, Except.ok.injEq] at hfc
      subst hfc
      exact ⟨c, hc1.1, by simpa using hc1.2, rfl, is_suggestion_of_spec hsug⟩

/-- Witness for C5: one comment whose attributes carry
`inline.state.initial.hassuggestion = "true"` and one whose attributes
lack the key; the flags come out true and false. -/
theorem changeset_comments_suggestion_witness :
    get_changeset_comments ⟨1, 1, 5, 2⟩
        [⟨1, "PHID-XACT-1", 1, "PHID-USER-1", 100, "hello",
          [("inline.state.initial", Json.obj [("hassuggestion", Json.str "true")])]⟩,
         ⟨2, "PHID-XACT-2", 1, "PHID-USER-1", 200, "plain", []⟩]
        [⟨"PHID-USER-1", "alice"⟩] =
      Except.ok [("comment-1", ⟨"alice", 100, 5, true⟩),
        ("comment-2", ⟨"alice", 200, 5, false⟩)] ∧
    ∀ entry ∈ ([("comment-1", ⟨"alice", 100, 5, true⟩),
        ("comment-2", ⟨"alice", 200, 5, false⟩)] :
        List (String × ChangesetCommentEntry)),
      ∃ c ∈ [(⟨1, "PHID-XACT-1", 1, "PHID-USER-1", 100, "hello",
            [("inline.state.initial", Json.obj [("hassuggestion", Json.str "true")])]⟩ :
            TransactionComment),
          ⟨2, "PHID-XACT-2", 1, "PHID-USER-1", 200, "plain", []⟩],
        c.changesetID = (⟨1, 1, 5, 2⟩ : Changeset).id ∧
        entry.1 = "comment-" ++ toString c.id ∧
        (entry.2.is_suggestion = true ↔
          ∃ inner, jsonLookup c.attributes "inline.state.initial" =
              some (Json.obj inner) ∧
            jsonLookup inner "hassuggestion" = some (Json.str "true")) :=
  ⟨rfl, changeset_comments_suggestion ⟨1, 1, 5, 2⟩
    [⟨1, "PHID-XACT-1", 1, "PHID-USER-1", 100, "hello",
      [("inline.state.initial", Json.obj [("hassuggestion", Json.str "true")])]⟩,
     ⟨2, "PHID-XACT-2", 1, "PHID-USER-1", 200, "plain", []⟩]
    [⟨"PHID-USER-1", "alice"⟩]
    [("comment-1", ⟨"alice", 100, 5, true⟩), ("comment-2", ⟨"alice", 200, 5, false⟩)]
    rfl⟩

/-- Claim C6: in a successfully materialized review-request record, the display
name comes from the project table exactly when the reviewer handle starts
with `PHID-PROJ-`, from the user table otherwise, and the `is group` flag
equals that branch condition. -/
theorem review_requests_resolution (revision_phid : String) (reviewers : List Reviewer)
    (projects : List Project) (users : List User)
    (res : List (String × ReviewRequestEntry))
    (hok : get_review_requests revision_phid reviewers projects users = Except.ok res) :
    ∀ entry ∈ res, ∃ review ∈ reviewers, review.revisionPHID = revision_phid ∧
      entry.1 = "review-" ++ toString review.id ∧
      entry.2.is_group = py_startswith review.reviewerPHID "PHID-PROJ-" ∧
      (py_startswith review.reviewerPHID "PHID-PROJ-" = true →
        ∃ pr ∈ projects, pr.phid = review.reviewerPHID ∧ entry.2.reviewer = pr.name) ∧
      (py_startswith review.reviewerPHID "PHID-PROJ-" = false →
        ∃ u ∈ users, u.phid = review.reviewerPHID ∧ entry.2.reviewer = u.userName) := by
  intro entry hentry
  obtain ⟨review, hrv, hf⟩ := buildDict_ok_mem hok entry hentry
  have hrv1 := List.mem_filter.mp hrv
  cases hsw : py_startswith review.reviewerPHID "PHID-PROJ-" with
  | true =>
    rw [hsw, if_pos rfl] at hf
    cases hq : queryOne (projects.filter (fun p => p.phid == review.reviewerPHID)) with
    | error e => rw [hq, except_bind_error] at hf; cases hf
    | ok pr =>
      simp only [hq, except_bind_ok, except_pure, Except.ok.injEq] at hf
      subst hf
      have hprm : pr ∈ projects.filter (fun p => p.phid == review.reviewerPHID) := by
        rw [queryOne_ok_iff.mp hq]
        exact List.mem_singleton.mpr rfl
      have hpr := List.mem_filter.mp hprm
      refine ⟨review, hrv1.1, by simpa using hrv1.2, rfl, hsw.symm, ?_, ?_⟩
      · intro _
        exact ⟨pr, hpr.1, by simpa using hpr.2, rfl⟩
      · intro hfalse
        rw [hsw] at hfalse
        cases hfalse
  | false =>
    rw [hsw, if_neg (by simp)] at hf
    cases hq : queryOne (users.filter (fun u => u.phid == review.reviewerPHID)) with
    | error e => rw [hq, except_bind_error] at hf; cases hf
    | ok u =>
      simp only [hq, except_bind_ok, except_pure, Except.ok.injEq] at hf
      subst hf
      have hum : u ∈ users.filter (fun u => u.phid == review.reviewerPHID) := by
        rw [queryOne_ok_iff.mp hq]
        exact List.mem_singleton.mpr rfl
      have hu := List.mem_filter.mp hum
      refine ⟨review, hrv1.1, by simpa using hrv1.2, rfl, hsw.symm, ?_, ?_⟩
      · intro htrue
        rw [hsw] at htrue
        cases htrue
      · intro _
        exact ⟨u, hu.1, by simpa using hu.2, rfl⟩

/-- Witness for C6: one group reviewer and one individual reviewer; the group
resolves via the project table with the flag set, the individual via the
user table with the flag clear. -/
theorem review_requests_resolution_witness :
    get_review_requests "RP"
        [⟨7, "RP", "PHID-PROJ-1", 1, 2, "accepted"⟩,
         ⟨9, "RP", "PHID-USER-1", 3, 4, "added"⟩]
        [⟨"PHID-PROJ-1", "grp"⟩] [⟨"PHID-USER-1", "alice"⟩] =
      Except.ok [("review-7", ⟨"grp", true, 1, 2, "accepted"⟩),
        ("review-9", ⟨"alice", false, 3, 4, "added"⟩)] ∧
    ∀ entry ∈ ([("review-7", ⟨"grp", true, 1, 2, "accepted"⟩),
        ("review-9", ⟨"alice", false, 3, 4, "added"⟩)] :
        List (String × ReviewRequestEntry)),
      ∃ review ∈ [(⟨7, "RP", "PHID-PROJ-1", 1, 2, "accepted"⟩ : Reviewer),
          ⟨9, "RP", "PHID-USER-1", 3, 4, "added"⟩],
        review.revisionPHID = "RP" ∧
        entry.1 = "review-" ++ toString review.id ∧
        entry.2.is_group = py_startswith review.reviewerPHID "PHID-PROJ-" ∧
        (py_startswith review.reviewerPHID "PHID-PROJ-" = true →
          ∃ pr ∈ [(⟨"PHID-PROJ-1", "grp"⟩ : Project)],
            pr.phid = review.reviewerPHID ∧ entry.2.reviewer = pr.name) ∧
        (py_startswith review.reviewerPHID "PHID-PROJ-" = false →
          ∃ u ∈ [(⟨"PHID-USER-1", "alice"⟩ : User)],
            u.phid = review.reviewerPHID ∧ entry.2.reviewer = u.userName) :=
  ⟨rfl, review_requests_resolution "RP"
    [⟨7, "RP", "PHID-PROJ-1", 1, 2, "accepted"⟩, ⟨9, "RP", "PHID-USER-1", 3, 4, "added"⟩]
    [⟨"PHID-PROJ-1", "grp"⟩] [⟨"PHID-USER-1", "alice"⟩]
    [("review-7", ⟨"grp", true, 1, 2, "accepted"⟩),
     ("review-9", ⟨"alice", false, 3, 4, "added"⟩)] rfl⟩

end PhabStats
